import Mathlib

/-!
Verification of the inline autocomplete engine of
`claude_alamode/widgets/autocomplete.py` (class `TextAreaAutoComplete`).

Python strings are sequences of code points, so buffer text is modelled as
`List Char`; Python slices `s[:k]` / `s[k:]` become `List.take` / `List.drop`
(both clamp, as Python slices do).  Fuzzy-match scores (floats produced by the
external `textual_autocomplete.FuzzySearch` dependency, which never yields
NaN here) are modelled as rationals supplied by an abstract scoring function.
Filesystem access (`os.scandir`) is an abstract environment function returning
`Except Unit` (the `OSError` branch).  Python's stable `list.sort` is modelled
by `List.insertionSort`, the standard stable sort.
-/

/-- Buffer text: a Python string as a sequence of code points. -/
abbrev Str := List Char

/-- `s.rfind(c)`: index of the last occurrence of `c` in `l`, if any. -/
def rfind (l : Str) (c : Char) : Option Nat :=
  match l with
  | [] => none
  | a :: as =>
    match rfind as c with
    | some i => some (i + 1)
    | none => if a = c then some 0 else none

theorem rfind_nil (c : Char) : rfind [] c = none := rfl

theorem rfind_cons_some {as : Str} {c : Char} {i : Nat} (a : Char)
    (h : rfind as c = some i) : rfind (a :: as) c = some (i + 1) := by
  simp [rfind, h]

theorem rfind_cons_none {as : Str} {c : Char} (a : Char)
    (h : rfind as c = none) :
    rfind (a :: as) c = if a = c then some 0 else none := by
  simp [rfind, h]

/-- The two active trigger modes (`self._mode` being `"slash"` or `"path"`);
`none` models `self._mode = None`. -/
inductive TriggerMode
  | slash
  | path
deriving DecidableEq, Repr

/-- The window the detector scans: `state.text[:state.cursor_position] if
state.cursor_position > 0 else state.text` (from `_handle_text_change`). -/
def windowOf (text : Str) (cursor : Nat) : Str :=
  if 0 < cursor then text.take cursor else text

/-- The test `ch in " \n\t"` from `_handle_text_change`. -/
def isWsChar (c : Char) : Bool :=
  c = ' ' || c = '\n' || c = '\t'

/-- Trigger detection, the pure part of `_handle_text_change` (lines 166-183):
slash mode when the full text starts with `/`; otherwise the last `@` in the
window, accepted only when at the start or preceded by space/newline/tab. -/
def detect (text : Str) (cursor : Nat) : Option (TriggerMode × Nat) :=
  if text.head? = some '/' then some (TriggerMode.slash, 0)
  else
    match rfind (windowOf text cursor) '@' with
    | none => none
    | some i =>
      if i = 0 then some (TriggerMode.path, 0)
      else
        match (windowOf text cursor)[i - 1]? with
        | some c => if isWsChar c then some (TriggerMode.path, i) else none
        | none => none

theorem detect_of_head {text : Str} (cursor : Nat)
    (h : text.head? = some '/') :
    detect text cursor = some (TriggerMode.slash, 0) := by
  simp [detect, h]

theorem detect_of_rfind_none {text : Str} {cursor : Nat}
    (hs : text.head? ≠ some '/')
    (hr : rfind (windowOf text cursor) '@' = none) :
    detect text cursor = none := by
  simp [detect, hs, hr]

theorem detect_of_rfind_zero {text : Str} {cursor : Nat}
    (hs : text.head? ≠ some '/')
    (hr : rfind (windowOf text cursor) '@' = some 0) :
    detect text cursor = some (TriggerMode.path, 0) := by
  simp [detect, hs, hr]

theorem detect_of_ws {text : Str} {cursor : Nat} {k : Nat} {ch : Char}
    (hs : text.head? ≠ some '/')
    (hr : rfind (windowOf text cursor) '@' = some k) (hk : k ≠ 0)
    (hc : (windowOf text cursor)[k - 1]? = some ch)
    (hws : isWsChar ch = true) :
    detect text cursor = some (TriggerMode.path, k) := by
  simp [detect, hs, hr, hk, hc, hws]

theorem detect_of_not_ws {text : Str} {cursor : Nat} {k : Nat} {ch : Char}
    (hs : text.head? ≠ some '/')
    (hr : rfind (windowOf text cursor) '@' = some k) (hk : k ≠ 0)
    (hc : (windowOf text cursor)[k - 1]? = some ch)
    (hws : isWsChar ch = false) :
    detect text cursor = none := by
  simp [detect, hs, hr, hk, hc, hws]

theorem detect_of_get_none {text : Str} {cursor : Nat} {k : Nat}
    (hs : text.head? ≠ some '/')
    (hr : rfind (windowOf text cursor) '@' = some k) (hk : k ≠ 0)
    (hc : (windowOf text cursor)[k - 1]? = none) :
    detect text cursor = none := by
  simp [detect, hs, hr, hk, hc]

/-- `i` is the index of the last occurrence of `c` in `w`. -/
def IsLastAt (w : Str) (c : Char) (i : Nat) : Prop :=
  w[i]? = some c ∧ ∀ j < w.length, i < j → w[j]? ≠ some c

instance (w : Str) (c : Char) (i : Nat) : Decidable (IsLastAt w c i) := by
  unfold IsLastAt; infer_instance

/-- The character immediately before index `i` in `w` is absent (start of
text) or one of space, newline, tab. -/
def WsOrStartBefore (w : Str) (i : Nat) : Prop :=
  i = 0 ∨ ∃ c ∈ ([' ', '\n', '\t'] : List Char), w[i - 1]? = some c

instance (w : Str) (i : Nat) : Decidable (WsOrStartBefore w i) := by
  unfold WsOrStartBefore; infer_instance

theorem rfind_eq_none_iff (c : Char) :
    ∀ (l : Str), rfind l c = none ↔ ∀ (j : Nat), l[j]? ≠ some c := by
  intro l
  induction l with
  | nil => simp [rfind]
  | cons a as ih =>
    constructor
    · intro h j
      cases hr : rfind as c with
      | some k => rw [rfind_cons_some a hr] at h; exact absurd h (by simp)
      | none =>
        rw [rfind_cons_none a hr] at h
        by_cases hac : a = c
        · simp [hac] at h
        · cases j with
          | zero => simp [hac]
          | succ j => simpa using (ih.mp hr) j
    · intro h
      cases hr : rfind as c with
      | some k =>
        exfalso
        have hnone : ∀ (j : Nat), as[j]? ≠ some c := fun j => by
          simpa using h (j + 1)
        rw [ih.mpr hnone] at hr
        exact absurd hr (by simp)
      | none =>
        have h0 : a ≠ c := by
          intro hac
          exact h 0 (by simp [hac])
        rw [rfind_cons_none a hr, if_neg h0]

theorem rfind_eq_some_iff (c : Char) :
    ∀ (l : Str) (i : Nat),
      rfind l c = some i ↔ (l[i]? = some c ∧ ∀ j, i < j → l[j]? ≠ some c) := by
  intro l
  induction l with
  | nil => intro i; simp [rfind]
  | cons a as ih =>
    intro i
    cases hr : rfind as c with
    | some k =>
      have hk := (ih k).mp hr
      rw [rfind_cons_some a hr]
      constructor
      · intro h
        have hik : i = k + 1 := by
          have := Option.some.inj h; omega
        subst hik
        refine ⟨by simpa using hk.1, ?_⟩
        intro j hj
        cases j with
        | zero => omega
        | succ j => simpa using hk.2 j (by omega)
      · rintro ⟨h1, h2⟩
        cases i with
        | zero =>
          exfalso
          exact h2 (k + 1) (by omega) (by simpa using hk.1)
        | succ i =>
          have h1' : as[i]? = some c := by simpa using h1
          have h2' : ∀ j, i < j → as[j]? ≠ some c := by
            intro j hj
            simpa using h2 (j + 1) (by omega)
          have heq : rfind as c = some i := (ih i).mpr ⟨h1', h2'⟩
          rw [hr] at heq
          have := Option.some.inj heq
          simp [this]
    | none =>
      have hnone : ∀ (j : Nat), as[j]? ≠ some c := (rfind_eq_none_iff c as).mp hr
      rw [rfind_cons_none a hr]
      by_cases hac : a = c
      · subst hac
        rw [if_pos rfl]
        constructor
        · intro h
          have hi0 : i = 0 := by
            have := Option.some.inj h; omega
          subst hi0
          refine ⟨by simp, ?_⟩
          intro j hj
          cases j with
          | zero => omega
          | succ j => simpa using hnone j
        · rintro ⟨h1, _⟩
          cases i with
          | zero => rfl
          | succ i => exact absurd (by simpa using h1) (hnone i)
      · rw [if_neg hac]
        constructor
        · intro h; exact absurd h (by simp)
        · rintro ⟨h1, _⟩
          cases i with
          | zero =>
            exact absurd (by simpa using h1 : a = c) hac
          | succ i => exact absurd (by simpa using h1) (hnone i)

theorem isLastAt_of_rfind {w : Str} {c : Char} {k : Nat}
    (h : rfind w c = some k) : IsLastAt w c k := by
  have := (rfind_eq_some_iff c w k).mp h
  exact ⟨this.1, fun j _ hk => this.2 j hk⟩

theorem isLastAt_unique {w : Str} {c : Char} {i k : Nat}
    (hi : IsLastAt w c i) (hk : IsLastAt w c k) : i = k := by
  by_contra hne
  rcases Nat.lt_or_ge i k with h | h
  · have hklen : k < w.length := by
      rcases List.getElem?_eq_some.mp hk.1 with ⟨hh, _⟩
      exact hh
    exact hi.2 k hklen h hk.1
  · have hilen : i < w.length := by
      rcases List.getElem?_eq_some.mp hi.1 with ⟨hh, _⟩
      exact hh
    have hki : k < i := by omega
    exact hk.2 i hilen hki hi.1

theorem rfind_of_isLastAt {w : Str} {c : Char} {k : Nat}
    (h : IsLastAt w c k) : rfind w c = some k := by
  cases hr : rfind w c with
  | none =>
    exact absurd h.1 ((rfind_eq_none_iff c w).mp hr k)
  | some j =>
    have := isLastAt_unique (isLastAt_of_rfind hr) h
    rw [this]

theorem detect_shape {text : Str} {cursor : Nat} {m : TriggerMode} {i : Nat}
    (h : detect text cursor = some (m, i)) :
    (m = TriggerMode.slash ∧ i = 0 ∧ text.head? = some '/')
    ∨ (m = TriggerMode.path ∧ text.head? ≠ some '/'
        ∧ rfind (windowOf text cursor) '@' = some i) := by
  by_cases hs : text.head? = some '/'
  · rw [detect_of_head cursor hs] at h
    have := Option.some.inj h
    exact Or.inl ⟨(congrArg Prod.fst this).symm, (congrArg Prod.snd this).symm, hs⟩
  · refine Or.inr ?_
    cases hr : rfind (windowOf text cursor) '@' with
    | none => rw [detect_of_rfind_none hs hr] at h; exact absurd h (by simp)
    | some k =>
      by_cases hk0 : k = 0
      · subst hk0
        rw [detect_of_rfind_zero hs hr] at h
        have := Option.some.inj h
        exact ⟨(congrArg Prod.fst this).symm, hs,
          congrArg some (congrArg Prod.snd this)⟩
      · cases hc : (windowOf text cursor)[k - 1]? with
        | none => rw [detect_of_get_none hs hr hk0 hc] at h; exact absurd h (by simp)
        | some ch =>
          by_cases hws : isWsChar ch
          · rw [detect_of_ws hs hr hk0 hc hws] at h
            have := Option.some.inj h
            exact ⟨(congrArg Prod.fst this).symm, hs,
              congrArg some (congrArg Prod.snd this)⟩
          · rw [detect_of_not_ws hs hr hk0 hc (by simpa using hws)] at h
            exact absurd h (by simp)

/-- **C1.** Trigger detection: slash mode with offset 0 exactly when the full
text starts with `/`; otherwise path mode at the last `@` of the window (text
up to the cursor, or the whole text when the cursor offset is 0) provided the
character before that `@` is absent or is a space, tab or newline; `none` in
every other case. -/
theorem detect_characterization (text : Str) (cursor : Nat) :
    (detect text cursor = some (TriggerMode.slash, 0) ↔ text.head? = some '/')
    ∧ (∀ i, detect text cursor = some (TriggerMode.path, i) ↔
        (text.head? ≠ some '/' ∧ IsLastAt (windowOf text cursor) '@' i
          ∧ WsOrStartBefore (windowOf text cursor) i))
    ∧ (detect text cursor = none ↔ (text.head? ≠ some '/'
        ∧ ∀ i, ¬ (IsLastAt (windowOf text cursor) '@' i
            ∧ WsOrStartBefore (windowOf text cursor) i))) := by
  have hpath : ∀ i, detect text cursor = some (TriggerMode.path, i) ↔
      (text.head? ≠ some '/' ∧ IsLastAt (windowOf text cursor) '@' i
        ∧ WsOrStartBefore (windowOf text cursor) i) := by
    intro i
    constructor
    · intro h
      rcases detect_shape h with ⟨hm, _, _⟩ | ⟨_, hs, hr⟩
      · exact absurd hm (by simp)
      · refine ⟨hs, isLastAt_of_rfind hr, ?_⟩
        by_cases hi0 : i = 0
        · exact Or.inl hi0
        · cases hc : (windowOf text cursor)[i - 1]? with
          | none => rw [detect_of_get_none hs hr hi0 hc] at h; exact absurd h (by simp)
          | some ch =>
            by_cases hws : isWsChar ch
            · refine Or.inr ⟨ch, ?_, hc⟩
              simp only [isWsChar, Bool.or_eq_true, decide_eq_true_eq] at hws
              simp only [List.mem_cons, List.mem_singleton, List.not_mem_nil, or_false]
              tauto
            · rw [detect_of_not_ws hs hr hi0 hc (by simpa using hws)] at h
              exact absurd h (by simp)
    · rintro ⟨hs, hlast, hwsb⟩
      have hr : rfind (windowOf text cursor) '@' = some i := rfind_of_isLastAt hlast
      rcases hwsb with hi0 | ⟨ch, hchmem, hc⟩
      · subst hi0
        exact detect_of_rfind_zero hs hr
      · by_cases hi0 : i = 0
        · subst hi0
          exact detect_of_rfind_zero hs hr
        · refine detect_of_ws hs hr hi0 hc ?_
          simp only [List.mem_cons, List.mem_singleton, List.not_mem_nil,
            or_false] at hchmem
          simp only [isWsChar, Bool.or_eq_true, decide_eq_true_eq]
          tauto
  refine ⟨?_, hpath, ?_⟩
  · constructor
    · intro h
      rcases detect_shape h with ⟨_, _, hs⟩ | ⟨hm, _, _⟩
      · exact hs
      · exact absurd hm (by simp)
    · intro h
      exact detect_of_head cursor h
  · constructor
    · intro h
      have hs : text.head? ≠ some '/' := by
        intro hcontra
        rw [detect_of_head cursor hcontra] at h
        exact absurd h (by simp)
      refine ⟨hs, fun i hcontra => ?_⟩
      have := (hpath i).mpr ⟨hs, hcontra.1, hcontra.2⟩
      rw [h] at this
      exact absurd this (by simp)
    · rintro ⟨hs, hno⟩
      cases hd : detect text cursor with
      | none => rfl
      | some mi =>
        exfalso
        rcases mi with ⟨m, i⟩
        rcases detect_shape hd with ⟨_, _, hcontra⟩ | ⟨hm, _, hr⟩
        · exact hs hcontra
        · exact hno i ⟨isLastAt_of_rfind hr,
            ((hpath i).mp (by rw [hd, hm])).2.2⟩

/-- Witness for C1: concrete evaluations through the characterization
(the examples of spec §8). -/
theorem detect_characterization_witness :
    detect ("hello @wo".data) 9 = some (TriggerMode.path, 6)
    ∧ detect ("/worktree".data) 9 = some (TriggerMode.slash, 0)
    ∧ detect ("a@b".data) 3 = none := by
  refine ⟨((detect_characterization ("hello @wo".data) 9).2.1 6).mpr (by decide),
    ((detect_characterization ("/worktree".data) 9).1).mpr (by decide),
    ((detect_characterization ("a@b".data) 3).2.2).mpr ⟨by decide, ?_⟩⟩
  intro i h
  have hlen3 : (windowOf "a@b".data 3).length = 3 := by decide
  have hlen : i < 3 := by
    rcases List.getElem?_eq_some.mp h.1.1 with ⟨hh, _⟩
    omega
  interval_cases i
  · exact absurd h (by decide)
  · exact absurd h (by decide)
  · exact absurd h (by decide)

/-- `cursor_pos = state.cursor_position if state.cursor_position > 0 else
len(text)` (from `_apply_completion`). -/
def effCursor (text : Str) (cursor : Nat) : Nat :=
  if 0 < cursor then cursor else text.length

/-- The `replace_start` computation of `_apply_completion`: just after the
last `/` of `path_text` when it contains one, else just after the trigger. -/
def replace_start_of (triggerPos : Nat) (path_text : Str) : Nat :=
  match rfind path_text '/' with
  | some last_slash => triggerPos + 1 + last_slash + 1
  | none => triggerPos + 1

/-- `_apply_completion(value, state)` (lines 411-439), returning the new
buffer text and the linear cursor offset.  In slash mode the code issues
`move_cursor((0, len(value)))`, whose linear offset under the repository's
own `_get_cursor_position` conversion is `len(value)`.  In path mode the code
derives `(row, col)` from `new_text[:new_cursor]`, whose linear offset is
`len(new_text[:new_cursor])`, modelled by the final `take`-length. -/
def apply_completion (mode : Option TriggerMode) (triggerPos : Nat)
    (value text : Str) (cursor : Nat) : Str × Nat :=
  let cursor_pos := effCursor text cursor
  match mode with
  | none => (text, cursor)
  | some TriggerMode.slash => (value, value.length)
  | some TriggerMode.path =>
    let path_text := (text.take cursor_pos).drop (triggerPos + 1)
    let replace_start := replace_start_of triggerPos path_text
    let new_text := text.take replace_start ++ value ++ text.drop cursor_pos
    (new_text, (new_text.take (replace_start + value.length)).length)

theorem replace_start_le {triggerPos : Nat} {text : Str} (ec : Nat)
    (htrig : triggerPos < text.length) :
    replace_start_of triggerPos ((text.take ec).drop (triggerPos + 1))
      ≤ text.length := by
  unfold replace_start_of
  cases hr : rfind ((text.take ec).drop (triggerPos + 1)) '/' with
  | none => simpa using htrig
  | some ls =>
    show triggerPos + 1 + ls + 1 ≤ text.length
    have hmem := (isLastAt_of_rfind hr).1
    rcases List.getElem?_eq_some.mp hmem with ⟨hlt, _⟩
    have hlen : ((text.take ec).drop (triggerPos + 1)).length
        = (text.take ec).length - (triggerPos + 1) := List.length_drop _ _
    have htk : (text.take ec).length = min ec text.length := List.length_take _ _
    have hle : min ec text.length ≤ text.length := Nat.min_le_right _ _
    omega

theorem apply_completion_path_eq {triggerPos : Nat} {value text : Str}
    {cursor : Nat} :
    apply_completion (some TriggerMode.path) triggerPos value text cursor
      = (text.take
            (replace_start_of triggerPos
              ((text.take (effCursor text cursor)).drop (triggerPos + 1)))
          ++ value ++ text.drop (effCursor text cursor),
         (( text.take
            (replace_start_of triggerPos
              ((text.take (effCursor text cursor)).drop (triggerPos + 1)))
          ++ value ++ text.drop (effCursor text cursor)).take
            (replace_start_of triggerPos
              ((text.take (effCursor text cursor)).drop (triggerPos + 1))
             + value.length)).length) := rfl

theorem apply_completion_cursor_exact {triggerPos : Nat} {value text : Str}
    {cursor : Nat} (htrig : triggerPos < text.length) :
    (apply_completion (some TriggerMode.path) triggerPos value text cursor).2
      = replace_start_of triggerPos
          ((text.take (effCursor text cursor)).drop (triggerPos + 1))
        + value.length := by
  rw [apply_completion_path_eq]
  have hrs := @replace_start_le triggerPos text (effCursor text cursor) htrig
  have h1 : (text.take
      (replace_start_of triggerPos
        ((text.take (effCursor text cursor)).drop (triggerPos + 1)))).length
      = replace_start_of triggerPos
          ((text.take (effCursor text cursor)).drop (triggerPos + 1)) := by
    rw [List.length_take]
    omega
  rw [List.length_take]
  simp only [List.length_append, h1]
  omega

theorem apply_completion_text_eq {triggerPos : Nat} {value text : Str}
    {cursor : Nat} :
    (apply_completion (some TriggerMode.path) triggerPos value text cursor).1
      = text.take
          (replace_start_of triggerPos
            ((text.take (effCursor text cursor)).drop (triggerPos + 1)))
        ++ value ++ text.drop (effCursor text cursor) := rfl

/-- **C3 as frozen is false**: it takes `pathText` and the kept suffix at the
literal `cursorOffset`.  At `text = "@a/b"`, `cursorOffset = 0`,
`triggerOffset = 0`, label `"x"`, the claim predicts `pathText = text[1:0] =
""` (no `/`), `replaceStart = 1`, buffer `text[0:1] + "x" + text[0:] =
"@x@a/b"`, cursor `2`; the code instead uses the effective cursor
`len(text) = 4` and yields `("@a/x", 4)`. -/
theorem apply_completion_c3_counterexample :
    apply_completion (some TriggerMode.path) 0 ("x".data) ("@a/b".data) 0
      ≠ (("@a/b".data.take 1) ++ "x".data ++ ("@a/b".data.drop 0),
         1 + "x".data.length) := by
  decide

/-- **C3 (amended).** Slash commit replaces the whole buffer with the label
and puts the cursor at its end.  Path commit, with the *effective* cursor
(`cursorOffset` when positive, end of text when `cursorOffset = 0`, as the
code computes) and `pathText = text[triggerOffset+1 : effCursor]`: when
`pathText` has a last `/` at `ls`, the replacement starts just after it
(`triggerOffset+1+ls+1`); otherwise at `triggerOffset+1`; the new buffer is
`text[0:replaceStart] + label + text[effCursor:]` with the cursor at
`replaceStart + len(label)`.  The trigger offset is required to lie inside
the text (it is the index of the detected trigger character). -/
theorem apply_completion_spec (triggerPos : Nat) (value text : Str)
    (cursor : Nat) (htrig : triggerPos < text.length) :
    apply_completion (some TriggerMode.slash) triggerPos value text cursor
      = (value, value.length)
    ∧ (∀ ls,
        IsLastAt ((text.take (effCursor text cursor)).drop (triggerPos + 1))
          '/' ls →
        apply_completion (some TriggerMode.path) triggerPos value text cursor
          = (text.take (triggerPos + 1 + ls + 1) ++ value
               ++ text.drop (effCursor text cursor),
             triggerPos + 1 + ls + 1 + value.length))
    ∧ ((∀ (j : Nat),
          ((text.take (effCursor text cursor)).drop (triggerPos + 1))[j]?
            ≠ some '/') →
        apply_completion (some TriggerMode.path) triggerPos value text cursor
          = (text.take (triggerPos + 1) ++ value
               ++ text.drop (effCursor text cursor),
             triggerPos + 1 + value.length)) := by
  refine ⟨rfl, ?_, ?_⟩
  · intro ls hls
    have hrs : replace_start_of triggerPos
        ((text.take (effCursor text cursor)).drop (triggerPos + 1))
        = triggerPos + 1 + ls + 1 := by
      unfold replace_start_of
      rw [rfind_of_isLastAt hls]
    have h1 := @apply_completion_text_eq triggerPos value text cursor
    have h2 := @apply_completion_cursor_exact triggerPos value text cursor htrig
    rw [hrs] at h1 h2
    exact Prod.ext_iff.mpr ⟨h1, h2⟩
  · intro hnone
    have hrs : replace_start_of triggerPos
        ((text.take (effCursor text cursor)).drop (triggerPos + 1))
        = triggerPos + 1 := by
      unfold replace_start_of
      rw [(rfind_eq_none_iff '/' _).mpr hnone]
    have h1 := @apply_completion_text_eq triggerPos value text cursor
    have h2 := @apply_completion_cursor_exact triggerPos value text cursor htrig
    rw [hrs] at h1 h2
    exact Prod.ext_iff.mpr ⟨h1, h2⟩

/-- Witness for C3 (amended): the splice example of spec §8 item 10:
completing `"@src/fo"` (cursor at end, trigger 0) with `"foo.py"` yields
`"@src/foo.py"` with the cursor at its end. -/
theorem apply_completion_spec_witness :
    apply_completion (some TriggerMode.path) 0 ("foo.py".data)
      ("@src/fo".data) 7
      = (("@src/fo".data.take 5) ++ "foo.py".data ++ ("@src/fo".data.drop 7),
         5 + "foo.py".data.length) :=
  (apply_completion_spec 0 ("foo.py".data) ("@src/fo".data) 7
    (by decide)).2.1 3 (by decide)

/-- **C4 as frozen is false**: it claims the suffix `text[cursorOffset:end]`
survives the splice.  At `text = "@a/b"`, `cursorOffset = 0`, trigger 0,
label `"x"`, that suffix is the whole `"@a/b"`, but the code produces
`"@a/x"`, in which it does not appear (no `b`). -/
theorem apply_completion_c4_counterexample :
    ¬ (("@a/b".data.drop 0).Sublist
        (apply_completion (some TriggerMode.path) 0 ("x".data)
          ("@a/b".data) 0).1) := by
  intro h
  exact absurd (h.subset (by decide : 'b' ∈ "@a/b".data.drop 0)) (by decide)

/-- **C4 (amended/frame).** With the effective cursor (end of text when
`cursorOffset = 0`): in path mode the prefix `text[0:replaceStart]` and the
suffix `text[effCursor:end]` are preserved exactly (character-for-character,
in place) around the spliced label; in slash mode the replaced span is the
whole buffer (result is exactly the label). -/
theorem apply_completion_frame (triggerPos : Nat) (value text : Str)
    (cursor : Nat) (htrig : triggerPos < text.length) :
    (apply_completion (some TriggerMode.slash) triggerPos value text cursor).1
      = value
    ∧ (apply_completion (some TriggerMode.path) triggerPos value text
        cursor).1.take
          (replace_start_of triggerPos
            ((text.take (effCursor text cursor)).drop (triggerPos + 1)))
      = text.take
          (replace_start_of triggerPos
            ((text.take (effCursor text cursor)).drop (triggerPos + 1)))
    ∧ (apply_completion (some TriggerMode.path) triggerPos value text
        cursor).1.drop
          (replace_start_of triggerPos
            ((text.take (effCursor text cursor)).drop (triggerPos + 1))
           + value.length)
      = text.drop (effCursor text cursor) := by
  have hrsle := @replace_start_le triggerPos text (effCursor text cursor) htrig
  have htakelen : (text.take
      (replace_start_of triggerPos
        ((text.take (effCursor text cursor)).drop (triggerPos + 1)))).length
      = replace_start_of triggerPos
          ((text.take (effCursor text cursor)).drop (triggerPos + 1)) := by
    rw [List.length_take]
    omega
  refine ⟨rfl, ?_, ?_⟩
  · rw [apply_completion_text_eq,
      List.take_append_of_le_length (by rw [List.length_append, htakelen]; omega),
      List.take_append_of_le_length htakelen.ge,
      List.take_take]
    simp
  · rw [apply_completion_text_eq,
      List.drop_left' (by rw [List.length_append, htakelen])]

/-- Witness for C4 (amended): in the §8 item 10 splice the prefix `"@src/"`
and the (empty) suffix are preserved exactly. -/
theorem apply_completion_frame_witness :
    (apply_completion (some TriggerMode.path) 0 ("foo.py".data)
      ("@src/fo".data) 7).1.take 5 = "@src/fo".data.take 5
    ∧ (apply_completion (some TriggerMode.path) 0 ("foo.py".data)
        ("@src/fo".data) 7).1.drop (5 + "foo.py".data.length)
      = "@src/fo".data.drop 7 :=
  ⟨(apply_completion_frame 0 ("foo.py".data) ("@src/fo".data) 7
      (by decide)).2.1,
   (apply_completion_frame 0 ("foo.py".data) ("@src/fo".data) 7
      (by decide)).2.2⟩

/-- **C10.** When the snapshot's `cursorOffset` is 0, the splice behaves as
if the cursor sat at the end of the buffer: the commit equals the commit at
cursor `len(text)`, and the replaced span extends from `replaceStart` to the
end of the text (the kept suffix is empty). -/
theorem apply_completion_cursor_zero (triggerPos : Nat) (value text : Str) :
    apply_completion (some TriggerMode.path) triggerPos value text 0
      = apply_completion (some TriggerMode.path) triggerPos value text
          text.length
    ∧ (apply_completion (some TriggerMode.path) triggerPos value text 0).1
      = text.take (replace_start_of triggerPos (text.drop (triggerPos + 1)))
        ++ value := by
  have hec : effCursor text 0 = text.length := by simp [effCursor]
  have hec2 : effCursor text text.length = text.length := by
    unfold effCursor
    split <;> rfl
  constructor
  · rw [apply_completion_path_eq, apply_completion_path_eq, hec, hec2]
  · rw [apply_completion_text_eq, hec, List.take_length, List.drop_length,
      List.append_nil]

/-- Model of `DropdownItem`: `main` is the label (the `value` property, i.e.
`main.plain`), `pfx` the optional display glyph (`prefix` in the source:
`"⚡ "`, `"📂 "` or `"📄 "`). Highlighting (`_apply_highlights`) only
styles `main` and never changes its text, so items are modelled by text. -/
structure DropdownItem where
  main : Str
  pfx : Option Str
deriving DecidableEq, Repr

instance : Inhabited DropdownItem := ⟨⟨[], none⟩⟩

/-- `DropdownItem.prompt` as plain text: `Content.assemble(prefix, main)`
when a prefix is present, else `main`. -/
def promptPlain (it : DropdownItem) : Str :=
  match it.pfx with
  | some p => p ++ it.main
  | none => it.main

/-- Python `s.lstrip("/")`. -/
def lstripSlashes (s : Str) : Str := s.dropWhile (fun c => c = '/')

/-- Python `s.rstrip("/")`. -/
def rstripSlashes (s : Str) : Str :=
  (s.reverse.dropWhile (fun c => c = '/')).reverse

/-- The query `_get_matches` actually matches with: the search string with
leading slashes stripped in slash mode, the raw search string otherwise. -/
def effQuery (mode : Option TriggerMode) (search : Str) : Str :=
  if mode = some TriggerMode.slash then lstripSlashes search else search

/-- The score the code computes for a candidate:
`self._fuzzy_search.match(query, candidate.value.rstrip("/"))`, with the
external matcher abstracted as `score`. -/
def itemScore (score : Str → Str → ℚ) (q : Str) (c : DropdownItem) : ℚ :=
  score q (rstripSlashes c.main)

/-- The order used by `matches_and_scores.sort(key=itemgetter(1),
reverse=True)`: descending by score; `insertionSort` with this relation is
the stable descending sort Python performs. -/
def scoreDesc (a b : DropdownItem × ℚ) : Prop := b.2 ≤ a.2

instance : DecidableRel scoreDesc :=
  fun a b => inferInstanceAs (Decidable (b.2 ≤ a.2))

instance : IsTotal (DropdownItem × ℚ) scoreDesc := ⟨fun a b => le_total b.2 a.2⟩

instance : IsTrans (DropdownItem × ℚ) scoreDesc :=
  ⟨fun _ _ _ hab hbc => le_trans hbc hab⟩

/-- `_get_matches(candidates, search_string)` (lines 285-312): keep the
candidates with strictly positive score and sort them by score descending
(stable).  The rebuilt (highlighted) item has the same text content as the
candidate, so the candidate itself stands for it. -/
def get_matches (score : Str → Str → ℚ) (mode : Option TriggerMode)
    (candidates : List DropdownItem) (search : Str) : List DropdownItem :=
  if search = [] then candidates
  else
    if effQuery mode search = [] then candidates
    else
      (List.insertionSort scoreDesc
        (candidates.filterMap (fun c =>
          if 0 < itemScore score (effQuery mode search) c
          then some (c, itemScore score (effQuery mode search) c)
          else none))).map Prod.fst

theorem filterMap_score_eq (score : Str → Str → ℚ) (q : Str)
    (candidates : List DropdownItem) :
    candidates.filterMap (fun c =>
      if 0 < itemScore score q c then some (c, itemScore score q c) else none)
    = (candidates.filter (fun c => decide (0 < itemScore score q c))).map
        (fun c => (c, itemScore score q c)) := by
  induction candidates with
  | nil => rfl
  | cons a as ih =>
    by_cases h : 0 < itemScore score q a <;>
      simp [List.filterMap_cons, List.filter_cons, h, ih]

theorem filter_orderedInsert_score (q₀ : ℚ) (a : DropdownItem × ℚ) :
    ∀ (l : List (DropdownItem × ℚ)),
      (List.orderedInsert scoreDesc a l).filter (fun p => decide (p.2 = q₀))
      = if a.2 = q₀
        then a :: l.filter (fun p => decide (p.2 = q₀))
        else l.filter (fun p => decide (p.2 = q₀)) := by
  intro l
  induction l with
  | nil =>
    by_cases h : a.2 = q₀ <;> simp [List.orderedInsert, h]
  | cons b bs ih =>
    by_cases hab : scoreDesc a b
    · rw [List.orderedInsert_of_le scoreDesc bs hab]
      by_cases ha : a.2 = q₀ <;> simp [List.filter_cons, ha]
    · have hstep : List.orderedInsert scoreDesc a (b :: bs)
          = b :: List.orderedInsert scoreDesc a bs := by
        simp [List.orderedInsert, hab]
      rw [hstep]
      have hlt : a.2 < b.2 := lt_of_not_le (by simpa [scoreDesc] using hab)
      by_cases ha : a.2 = q₀
      · have hb : ¬ (b.2 = q₀) := by
          intro hbq
          rw [ha] at hlt
          exact absurd hbq (ne_of_gt hlt)
        simp [List.filter_cons, hb, ih, ha]
      · simp only [List.filter_cons, ih, if_neg ha]

theorem filter_insertionSort_score (q₀ : ℚ) :
    ∀ (l : List (DropdownItem × ℚ)),
      (List.insertionSort scoreDesc l).filter (fun p => decide (p.2 = q₀))
      = l.filter (fun p => decide (p.2 = q₀)) := by
  intro l
  induction l with
  | nil => rfl
  | cons a as ih =>
    show (List.orderedInsert scoreDesc a
      (List.insertionSort scoreDesc as)).filter (fun p => decide (p.2 = q₀)) = _
    rw [filter_orderedInsert_score q₀ a (List.insertionSort scoreDesc as), ih]
    by_cases h : a.2 = q₀ <;> simp [List.filter_cons, h]

/-- **C5.** For every candidate sequence and every non-empty (effective)
search query, the ranked list is exactly the candidates with strictly
positive score, sorted by score descending, with equal-score candidates in
their original relative order (stability, stated per score value). -/
theorem get_matches_spec (score : Str → Str → ℚ) (mode : Option TriggerMode)
    (candidates : List DropdownItem) (search : Str)
    (hq : effQuery mode search ≠ []) :
    (get_matches score mode candidates search).Perm
      (candidates.filter
        (fun c => decide (0 < itemScore score (effQuery mode search) c)))
    ∧ (get_matches score mode candidates search).Sorted
        (fun a b => itemScore score (effQuery mode search) b
          ≤ itemScore score (effQuery mode search) a)
    ∧ ∀ q₀ : ℚ,
        (get_matches score mode candidates search).filter
          (fun c => decide (itemScore score (effQuery mode search) c = q₀))
        = candidates.filter
            (fun c => decide (itemScore score (effQuery mode search) c = q₀)
              && decide (0 < itemScore score (effQuery mode search) c)) := by
  have hsearch : ¬ (search = []) := by
    intro h
    subst h
    apply hq
    unfold effQuery lstripSlashes
    split <;> rfl
  unfold get_matches
  rw [if_neg hsearch, if_neg hq, filterMap_score_eq]
  have hinv : ∀ p ∈ List.insertionSort scoreDesc
      ((candidates.filter (fun c =>
        decide (0 < itemScore score (effQuery mode search) c))).map
        (fun c => (c, itemScore score (effQuery mode search) c))),
      p.2 = itemScore score (effQuery mode search) p.1 := by
    intro p hp
    have hp' := (List.perm_insertionSort scoreDesc _).subset hp
    rcases List.mem_map.mp hp' with ⟨c, _, rfl⟩
    rfl
  refine ⟨?_, ?_, ?_⟩
  · have hperm := (List.perm_insertionSort scoreDesc
      ((candidates.filter (fun c =>
        decide (0 < itemScore score (effQuery mode search) c))).map
        (fun c => (c, itemScore score (effQuery mode search) c)))).map Prod.fst
    refine hperm.trans ?_
    have hmapid : (List.map (fun c => (c, itemScore score (effQuery mode search) c))
        (candidates.filter (fun c =>
          decide (0 < itemScore score (effQuery mode search) c)))).map Prod.fst
        = candidates.filter (fun c =>
            decide (0 < itemScore score (effQuery mode search) c)) := by
      rw [List.map_map]
      have h : (Prod.fst ∘ fun c =>
          (c, itemScore score (effQuery mode search) c)) = id := rfl
      rw [h, List.map_id]
    rw [hmapid]
  · have hsorted := List.sorted_insertionSort scoreDesc
      ((candidates.filter (fun c =>
        decide (0 < itemScore score (effQuery mode search) c))).map
        (fun c => (c, itemScore score (effQuery mode search) c)))
    refine List.pairwise_map.mpr ?_
    refine hsorted.imp_of_mem ?_
    intro a b ha hb hr
    have h1 := hinv a ha
    have h2 := hinv b hb
    rw [← h1, ← h2]
    exact hr
  · intro q₀
    rw [List.filter_map]
    have hcong : (List.insertionSort scoreDesc
        ((candidates.filter (fun c =>
          decide (0 < itemScore score (effQuery mode search) c))).map
          (fun c => (c, itemScore score (effQuery mode search) c)))).filter
        ((fun c => decide (itemScore score (effQuery mode search) c = q₀))
          ∘ Prod.fst)
        = (List.insertionSort scoreDesc
          ((candidates.filter (fun c =>
            decide (0 < itemScore score (effQuery mode search) c))).map
            (fun c => (c, itemScore score (effQuery mode search) c)))).filter
          (fun p => decide (p.2 = q₀)) := by
      refine List.filter_congr ?_
      intro p hp
      have := hinv p hp
      simp [Function.comp, this]
    rw [hcong, filter_insertionSort_score, List.filter_map, List.map_map,
      List.filter_filter]
    have h : (Prod.fst ∘ fun c =>
        (c, itemScore score (effQuery mode search) c)) = id := rfl
    rw [h, List.map_id]
    rfl

/-- A concrete stand-in for the external fuzzy matcher, used to witness the
ranking theorem on a concrete candidate list. -/
def sampleScore : Str → Str → ℚ := fun _ c =>
  if c = "bb".data then 2 else if c = "cc".data then 0 else 1

/-- Witness for C5: on four concrete candidates (one scoring 0) the ranked
list is a permutation of exactly the positively scored ones. -/
theorem get_matches_spec_witness :
    (get_matches sampleScore none
      [⟨"aa".data, none⟩, ⟨"bb".data, none⟩, ⟨"cc".data, none⟩,
        ⟨"dd".data, none⟩] ("x".data)).Perm
      ([⟨"aa".data, none⟩, ⟨"bb".data, none⟩, ⟨"cc".data, none⟩,
        ⟨"dd".data, none⟩].filter
        (fun c => decide (0 < itemScore sampleScore
          (effQuery none ("x".data)) c))) :=
  (get_matches_spec sampleScore none
    [⟨"aa".data, none⟩, ⟨"bb".data, none⟩, ⟨"cc".data, none⟩,
      ⟨"dd".data, none⟩] ("x".data) (by decide)).1

/-- One `os.DirEntry` of a directory listing: its `name` and `is_dir()`. -/
structure DirEntry where
  name : Str
  isDirectory : Bool
deriving DecidableEq, Repr

/-- Python `value.endswith("/")`. -/
def endsWithSlash (s : Str) : Bool := s.getLast? = some '/'

/-- Python `value.lower()` (`str.lower`, code-point-wise; ASCII per
`Char.toLower`, which is all the glyphs the sort key distinguishes here). -/
def lowerStr (s : Str) : Str := s.map Char.toLower

/-- Python string `<=` on code points (used through the tuple sort key). -/
def lexLeB : Str → Str → Bool
  | [], _ => true
  | _ :: _, [] => false
  | x :: xs, y :: ys =>
    if x.toNat < y.toNat then true
    else if y.toNat < x.toNat then false
    else lexLeB xs ys

theorem lexLeB_total : ∀ (x y : Str), lexLeB x y = true ∨ lexLeB y x = true := by
  intro x
  induction x with
  | nil => intro y; left; rfl
  | cons a as ih =>
    intro y
    cases y with
    | nil => right; rfl
    | cons b bs =>
      by_cases hab : a.toNat < b.toNat
      · left; simp [lexLeB, hab]
      · by_cases hba : b.toNat < a.toNat
        · right; simp [lexLeB, hba]
        · rcases ih bs with h | h
          · left; simp [lexLeB, hab, hba, h]
          · right; simp [lexLeB, hab, hba, h]

theorem lexLeB_trans : ∀ (x y z : Str), lexLeB x y = true → lexLeB y z = true →
    lexLeB x z = true := by
  intro x
  induction x with
  | nil => intro y z _ _; rfl
  | cons a as ih =>
    intro y z hxy hyz
    cases y with
    | nil => exact absurd hxy (by simp [lexLeB])
    | cons b bs =>
      cases z with
      | nil => exact absurd hyz (by simp [lexLeB])
      | cons c cs =>
        simp only [lexLeB] at hxy hyz ⊢
        have hxy' : a.toNat < b.toNat
            ∨ (a.toNat = b.toNat ∧ lexLeB as bs = true) := by
          by_cases h1 : a.toNat < b.toNat
          · exact Or.inl h1
          · by_cases h2 : b.toNat < a.toNat
            · rw [if_neg h1, if_pos h2] at hxy
              exact absurd hxy (by simp)
            · rw [if_neg h1, if_neg h2] at hxy
              exact Or.inr ⟨by omega, hxy⟩
        have hyz' : b.toNat < c.toNat
            ∨ (b.toNat = c.toNat ∧ lexLeB bs cs = true) := by
          by_cases h1 : b.toNat < c.toNat
          · exact Or.inl h1
          · by_cases h2 : c.toNat < b.toNat
            · rw [if_neg h1, if_pos h2] at hyz
              exact absurd hyz (by simp)
            · rw [if_neg h1, if_neg h2] at hyz
              exact Or.inr ⟨by omega, hyz⟩
        rcases hxy' with h1 | ⟨h1, hx⟩ <;> rcases hyz' with h2 | ⟨h2, hy⟩
        · rw [if_pos (by omega : a.toNat < c.toNat)]
        · rw [if_pos (by omega : a.toNat < c.toNat)]
        · rw [if_pos (by omega : a.toNat < c.toNat)]
        · rw [if_neg (by omega : ¬ a.toNat < c.toNat),
            if_neg (by omega : ¬ c.toNat < a.toNat)]
          exact ih bs cs hx hy

/-- The sort key comparison of `_get_path_candidates`:
`key=lambda x: (not x.value.endswith("/"), x.value.lower())`, i.e. Python
tuple order: `False` (container) sorts before `True` (non-container), ties
resolved by the lowercased label, code-point lexicographic. -/
def pathKeyLeB (a b : DropdownItem) : Bool :=
  match endsWithSlash a.main, endsWithSlash b.main with
  | true, false => true
  | false, true => false
  | _, _ => lexLeB (lowerStr a.main) (lowerStr b.main)

def pathKeyLe (a b : DropdownItem) : Prop := pathKeyLeB a b = true

instance : DecidableRel pathKeyLe :=
  fun a b => inferInstanceAs (Decidable (pathKeyLeB a b = true))

instance : IsTotal DropdownItem pathKeyLe := by
  constructor
  intro a b
  unfold pathKeyLe pathKeyLeB
  cases ha : endsWithSlash a.main <;> cases hb : endsWithSlash b.main <;>
    simp only [ha, hb] <;>
    first
    | trivial
    | exact lexLeB_total _ _

instance : IsTrans DropdownItem pathKeyLe := by
  constructor
  intro a b c hab hbc
  unfold pathKeyLe pathKeyLeB at hab hbc ⊢
  cases ha : endsWithSlash a.main <;> cases hb : endsWithSlash b.main <;>
    cases hc : endsWithSlash c.main <;>
    simp only [ha, hb, hc] at hab hbc ⊢ <;>
    first
    | rfl
    | exact lexLeB_trans _ _ _ hab hbc
    | exact Bool.noConfusion hab
    | exact Bool.noConfusion hbc

theorem mem_of_getLast?_eq {l : Str} {a : Char} (h : l.getLast? = some a) :
    a ∈ l := by
  rcases List.mem_getLast?_eq_getLast (Option.mem_def.mpr h) with ⟨hne, heq⟩
  rw [heq]
  exact List.getLast_mem hne

/-- The `results` list built and sorted by `_get_path_candidates`
(lines 258-270): one item per non-hidden entry (names starting with `.`
skipped), directories as `name + "/"` with the `📂 ` prefix, files as
`name` with the `📄 ` prefix, sorted by
`(not value.endswith("/"), value.lower())`. -/
def path_results_of (entries : List DirEntry) : List DropdownItem :=
  List.insertionSort pathKeyLe (entries.filterMap (fun e =>
    if e.name.head? = some '.' then none
    else if e.isDirectory then some ⟨e.name ++ ['/'], some "📂 ".data⟩
    else some ⟨e.name, some "📄 ".data⟩))

theorem path_results_unsorted (entries : List DirEntry) :
    entries.filterMap (fun e =>
      if e.name.head? = some '.' then none
      else if e.isDirectory then some ⟨e.name ++ ['/'], some "📂 ".data⟩
      else some ⟨e.name, some "📄 ".data⟩)
    = (entries.filter (fun e => !(decide (e.name.head? = some '.')))).map
        (fun e => if e.isDirectory
          then (⟨e.name ++ ['/'], some "📂 ".data⟩ : DropdownItem)
          else ⟨e.name, some "📄 ".data⟩) := by
  induction entries with
  | nil => rfl
  | cons e es ih =>
    by_cases hdot : e.name.head? = some '.'
    · simp [List.filterMap_cons, List.filter_cons, hdot, ih]
    · by_cases hd : e.isDirectory <;>
        simp [List.filterMap_cons, List.filter_cons, hdot, hd, ih]

/-- **C6.** One candidate per non-hidden entry; directories get a trailing
`/` appended to the label (making them the container entries) and files do
not; the output is ordered containers first, then case-insensitively
lexicographically by label.  Directory-entry names never contain `/`
(an operating-system guarantee for `os.scandir` results). -/
theorem path_results_spec (entries : List DirEntry)
    (hnoslash : ∀ e ∈ entries, '/' ∉ e.name) :
    (path_results_of entries).Perm
      ((entries.filter (fun e => !(decide (e.name.head? = some '.')))).map
        (fun e => if e.isDirectory
          then (⟨e.name ++ ['/'], some "📂 ".data⟩ : DropdownItem)
          else ⟨e.name, some "📄 ".data⟩))
    ∧ (path_results_of entries).Pairwise
        (fun a b => endsWithSlash b.main = true → endsWithSlash a.main = true)
    ∧ (path_results_of entries).Pairwise
        (fun a b => endsWithSlash a.main = endsWithSlash b.main →
          lexLeB (lowerStr a.main) (lowerStr b.main) = true)
    ∧ ∀ e ∈ entries, ¬ (e.name.head? = some '.') →
        endsWithSlash (if e.isDirectory
          then (⟨e.name ++ ['/'], some "📂 ".data⟩ : DropdownItem)
          else ⟨e.name, some "📄 ".data⟩).main = e.isDirectory := by
  have hsorted : (path_results_of entries).Sorted pathKeyLe :=
    List.sorted_insertionSort pathKeyLe _
  refine ⟨?_, ?_, ?_, ?_⟩
  · unfold path_results_of
    refine (List.perm_insertionSort pathKeyLe _).trans ?_
    rw [path_results_unsorted]
  · refine hsorted.imp ?_
    intro a b h hb
    cases ha : endsWithSlash a.main
    · unfold pathKeyLe pathKeyLeB at h
      simp only [ha, hb] at h
      exact Bool.noConfusion h
    · rfl
  · refine hsorted.imp ?_
    intro a b h heq
    cases ha : endsWithSlash a.main
    · rw [ha] at heq
      unfold pathKeyLe pathKeyLeB at h
      simp only [ha, heq.symm] at h
      exact h
    · rw [ha] at heq
      unfold pathKeyLe pathKeyLeB at h
      simp only [ha, heq.symm] at h
      exact h
  · intro e he hdot
    by_cases hd : e.isDirectory
    · simp [hd, endsWithSlash, List.getLast?_concat]
    · have hne : e.name.getLast? ≠ some '/' := by
        intro hcontra
        exact hnoslash e he (mem_of_getLast?_eq hcontra)
      have hdf : e.isDirectory = false := by
        cases hdd : e.isDirectory
        · rfl
        · exact absurd hdd hd
      simp only [hdf]
      simp only [ite_false, if_false, Bool.false_eq_true]
      unfold endsWithSlash
      exact decide_eq_false hne

/-- Witness for C6: the directory of spec §8 item 6 (`file1.txt`,
`file2.txt`, `subdir/`, `.hidden`) yields one candidate per non-hidden
entry. -/
theorem path_results_spec_witness :
    (path_results_of
      [⟨"file1.txt".data, false⟩, ⟨"file2.txt".data, false⟩,
        ⟨"subdir".data, true⟩, ⟨".hidden".data, false⟩]).Perm
      ((([⟨"file1.txt".data, false⟩, ⟨"file2.txt".data, false⟩,
          ⟨"subdir".data, true⟩,
          ⟨".hidden".data, false⟩] : List DirEntry).filter
          (fun e => !(decide (e.name.head? = some '.')))).map
        (fun e => if e.isDirectory
          then (⟨e.name ++ ['/'], some "📂 ".data⟩ : DropdownItem)
          else ⟨e.name, some "📄 ".data⟩)) :=
  (path_results_spec
    [⟨"file1.txt".data, false⟩, ⟨"file2.txt".data, false⟩,
      ⟨"subdir".data, true⟩, ⟨".hidden".data, false⟩] (by decide)).1

/-- Modelled from the spec: `textual.cache.LRUCache` (the `textual` library
is an external dependency, not part of this repository's sources).  Spec
§4.4/§3: a capacity-bounded mapping in recency order (most recently used
first); `get` on a hit promotes the key; inserting a new key when full
evicts the least-recently-accessed key before inserting. -/
structure LRU (V : Type) where
  capacity : Nat
  entries : List (Str × V)

/-- `get(key)`: `none` on a miss; on a hit, the value, with the key promoted
to most recently used. -/
def LRU.get {V : Type} (cache : LRU V) (k : Str) : Option V × LRU V :=
  match cache.entries.find? (fun p => decide (p.1 = k)) with
  | none => (none, cache)
  | some p =>
    (some p.2,
      ⟨cache.capacity,
        (k, p.2) :: cache.entries.eraseP (fun q => decide (q.1 = k))⟩)

/-- `cache[key] = value`: update-and-promote an existing key; insert a new
key at most-recently-used, evicting the least-recently-used entry first
when the cache is full. -/
def LRU.put {V : Type} (cache : LRU V) (k : Str) (v : V) : LRU V :=
  match cache.entries.find? (fun p => decide (p.1 = k)) with
  | some _ =>
    ⟨cache.capacity,
      (k, v) :: cache.entries.eraseP (fun q => decide (q.1 = k))⟩
  | none =>
    if cache.capacity ≤ cache.entries.length then
      ⟨cache.capacity, (k, v) :: cache.entries.dropLast⟩
    else
      ⟨cache.capacity, (k, v) :: cache.entries⟩

theorem lru_get_miss {V : Type} {cache : LRU V} {k : Str}
    (h : (cache.get k).1 = none) : cache.get k = (none, cache) := by
  unfold LRU.get at h ⊢
  cases hf : cache.entries.find? (fun p => decide (p.1 = k)) with
  | none => rfl
  | some p =>
    rw [hf] at h
    exact absurd h (by simp)

theorem find?_key_some {V : Type} {l : List (Str × V)} {k : Str}
    {p : Str × V} (hf : l.find? (fun q => decide (q.1 = k)) = some p) :
    p ∈ l ∧ p.1 = k := by
  refine ⟨List.mem_of_find?_eq_some hf, ?_⟩
  have := List.find?_some hf
  simpa using this

/-- **C8.** The cache never exceeds its capacity; inserting a fresh key when
full evicts exactly the least-recently-used (last) entry; a `get` hit
promotes its key, so a key read just before a fresh insert survives the
eviction (capacity at least 2). -/
theorem lru_spec {V : Type} (s : LRU V) (k kf k' : Str) (v v' : V)
    (hcap : 0 < s.capacity) (hlen : s.entries.length ≤ s.capacity) :
    ((s.put k v).entries.length ≤ s.capacity)
    ∧ ((s.get k).2.entries.length = s.entries.length)
    ∧ (s.entries.length = s.capacity → (∀ p ∈ s.entries, p.1 ≠ kf) →
        (s.put kf v).entries = (kf, v) :: s.entries.dropLast)
    ∧ (s.entries.length = s.capacity → 2 ≤ s.capacity →
        (∃ p ∈ s.entries, p.1 = k) →
        (∀ p ∈ (s.get k).2.entries, p.1 ≠ k') →
        k ∈ ((s.get k).2.put k' v').entries.map Prod.fst) := by
  refine ⟨?_, ?_, ?_, ?_⟩
  · unfold LRU.put
    cases hf : s.entries.find? (fun p => decide (p.1 = k)) with
    | some p =>
      rcases find?_key_some hf with ⟨hmem, hpk⟩
      have herase : (s.entries.eraseP
          (fun q => decide (q.1 = k))).length = s.entries.length - 1 :=
        List.length_eraseP_of_mem hmem (by simp [hpk])
      simp only [List.length_cons, herase]
      omega
    | none =>
      by_cases hfull : s.capacity ≤ s.entries.length
      · rw [if_pos hfull]
        simp only [List.length_cons, List.length_dropLast]
        omega
      · rw [if_neg hfull]
        simp only [List.length_cons]
        omega
  · unfold LRU.get
    cases hf : s.entries.find? (fun p => decide (p.1 = k)) with
    | none => rfl
    | some p =>
      rcases find?_key_some hf with ⟨hmem, hpk⟩
      have herase : (s.entries.eraseP
          (fun q => decide (q.1 = k))).length = s.entries.length - 1 :=
        List.length_eraseP_of_mem hmem (by simp [hpk])
      have hpos : 0 < s.entries.length := List.length_pos_of_mem hmem
      simp only [List.length_cons, herase]
      omega
  · intro hfull hfresh
    unfold LRU.put
    have hf : s.entries.find? (fun p => decide (p.1 = kf)) = none :=
      List.find?_eq_none.mpr (fun p hp => by simp [hfresh p hp])
    rw [hf]
    rw [if_pos (le_of_eq hfull.symm)]
  · intro hfull hcap2 hhit hfresh
    have hfsome : (s.entries.find? (fun p => decide (p.1 = k))).isSome :=
      List.find?_isSome.mpr (by
        rcases hhit with ⟨p, hp, hpk⟩
        exact ⟨p, hp, by simp [hpk]⟩)
    rcases Option.isSome_iff_exists.mp hfsome with ⟨p, hfp⟩
    rcases find?_key_some hfp with ⟨hmem, hpk⟩
    have hget : (s.get k).2
        = ⟨s.capacity,
            (k, p.2) :: s.entries.eraseP (fun q => decide (q.1 = k))⟩ := by
      unfold LRU.get
      rw [hfp]
    have herase : (s.entries.eraseP
        (fun q => decide (q.1 = k))).length = s.entries.length - 1 :=
      List.length_eraseP_of_mem hmem (by simp [hpk])
    have hpos : 0 < s.entries.length := List.length_pos_of_mem hmem
    have herasenil : s.entries.eraseP (fun q => decide (q.1 = k)) ≠ [] := by
      intro hcontra
      rw [hcontra] at herase
      simp at herase
      omega
    have hf' : ((s.get k).2.entries.find?
        (fun q => decide (q.1 = k'))) = none :=
      List.find?_eq_none.mpr (fun q hq => by simp [hfresh q hq])
    unfold LRU.put
    rw [hf', hget]
    rw [if_pos (by
      simp only [List.length_cons, herase]
      omega)]
    simp only [List.dropLast_cons_of_ne_nil herasenil, List.map_cons]
    exact List.mem_cons_of_mem _ (List.mem_cons_self _ _)

/-- Witness for C8: a concrete capacity-2 cache holding keys `"a"`, `"b"`
(`"a"` most recent): a fresh insert evicts `"b"`, unless `"b"` was read just
before, in which case `"a"` is evicted and `"b"` survives. -/
theorem lru_spec_witness :
    (((⟨2, [("a".data, 0), ("b".data, 1)]⟩ : LRU Nat).put
        ("c".data) 2).entries.length ≤ 2)
    ∧ (((⟨2, [("a".data, 0), ("b".data, 1)]⟩ : LRU Nat).put ("c".data)
        2).entries
        = (("c".data, 2) :: [("a".data, 0), ("b".data, 1)].dropLast))
    ∧ "b".data ∈ ((((⟨2, [("a".data, 0), ("b".data, 1)]⟩ : LRU Nat).get
          ("b".data)).2.put ("c".data) 2).entries.map Prod.fst) := by
  have h := lru_spec (⟨2, [("a".data, 0), ("b".data, 1)]⟩ : LRU Nat)
    ("b".data) ("c".data) ("c".data) 2 2 (by decide) (by decide)
  have h2 := lru_spec (⟨2, [("a".data, 0), ("b".data, 1)]⟩ : LRU Nat)
    ("c".data) ("c".data) ("c".data) 2 2 (by decide) (by decide)
  refine ⟨h2.1, h.2.2.1 (by decide) (by decide), ?_⟩
  refine h.2.2.2 (by decide) (by decide)
    ⟨("b".data, 1), by decide, by decide⟩ ?_
  intro p hp
  have hentries : ((⟨2, [("a".data, 0), ("b".data, 1)]⟩ : LRU Nat).get
      ("b".data)).2.entries = [("b".data, 1), ("a".data, 0)] := by rfl
  rw [hentries] at hp
  simp only [List.mem_cons, List.not_mem_nil, or_false] at hp
  rcases hp with hpe | hpe <;> rw [hpe] <;> decide

/-- `pathlib`'s `base / rhs` on path strings: an absolute right side
replaces the base; a `"."` base is dropped (pathlib normalisation);
otherwise the two are joined with `/`. -/
def joinPath (base rhs : Str) : Str :=
  if rhs.head? = some '/' then rhs
  else if base = ".".data then rhs
  else base ++ '/' :: rhs

/-- The directory `_get_path_candidates` lists (lines 238-247):
`path_text = text[:cursor][trigger+1:]`; with a `/` in it, the base joined
with `path_text[:last_slash] or "/"`; otherwise the base itself. -/
def target_directory (basePath text : Str) (cursor triggerPos : Nat) : Str :=
  let path_text := (text.take cursor).drop (triggerPos + 1)
  match rfind path_text '/' with
  | some last_slash =>
    joinPath basePath
      (if path_text.take last_slash = [] then "/".data
       else path_text.take last_slash)
  | none => basePath

/-- `_get_path_candidates(state)` (lines 236-270), with `os.scandir`
abstracted as `fs` and the directory cache threaded explicitly: on a cache
hit the cached entries are used (and the key promoted); on a miss the
directory is read, a success populating the cache and any `OSError`
yielding no candidates. -/
def get_path_candidates (fs : Str → Except Unit (List DirEntry))
    (cache : LRU (List DirEntry)) (basePath text : Str)
    (cursor triggerPos : Nat) : List DropdownItem × LRU (List DirEntry) :=
  let dir := target_directory basePath text cursor triggerPos
  let got := cache.get dir
  match got.1 with
  | some entries => (path_results_of entries, got.2)
  | none =>
    match fs dir with
    | Except.ok entries => (path_results_of entries, (got.2).put dir entries)
    | Except.error _ => ([], got.2)

/-- **C7.** When the directory is not cached and cannot be read (the
`os.scandir` call raises `OSError`: missing directory, permission denied,
any read failure), candidate resolution returns the empty candidate list,
leaves the cache as it was, and — being a total function in this model,
with the exception captured by the `Except.error` branch — propagates no
exception to the caller. -/
theorem get_path_candidates_error (fs : Str → Except Unit (List DirEntry))
    (cache : LRU (List DirEntry)) (basePath text : Str)
    (cursor triggerPos : Nat)
    (hmiss : (cache.get
        (target_directory basePath text cursor triggerPos)).1 = none)
    (herr : fs (target_directory basePath text cursor triggerPos)
        = Except.error ()) :
    get_path_candidates fs cache basePath text cursor triggerPos
      = ([], cache) := by
  unfold get_path_candidates
  simp only [lru_get_miss hmiss, herr]

/-- Witness for C7: an unreadable filesystem and an empty cache yield no
candidates and an unchanged cache. -/
theorem get_path_candidates_error_witness :
    get_path_candidates (fun _ => Except.error ()) ⟨100, []⟩
      (".".data) ("@src/fo".data) 7 0 = ([], ⟨100, []⟩) :=
  get_path_candidates_error (fun _ => Except.error ()) ⟨100, []⟩
    (".".data) ("@src/fo".data) 7 0 (by decide) rfl

/-- `_should_show(search_string)` (lines 200-212): hidden with no options;
with more than one, shown; with exactly one, the code compares the text of
the option's *prompt* (`str(first_option)`, which is the display glyph
prefix followed by the label) against the search string, the latter with
its leading slashes stripped in slash mode. -/
def should_show (mode : Option TriggerMode) (options : List DropdownItem)
    (search : Str) : Bool :=
  match options with
  | [] => false
  | [o] =>
    if mode = some TriggerMode.slash
    then decide (promptPlain o ≠ lstripSlashes search)
    else decide (promptPlain o ≠ search)
  | _ => true

/-- **C9 fails on the code (code bug).**  With exactly one remaining
candidate whose label already equals the search text, the claim (and spec
§4.5) requires the dropdown to stay hidden; `_should_show` instead compares
the option's prompt text, which carries the two-character display glyph
prefix (`"📄 "` here), so the comparison never matches and the dropdown is
shown.  The conjuncts: the code shows the dropdown at this input, the
candidate's label does equal the search text, and the prompt the code
compares is the glyph-prefixed label. -/
theorem should_show_prompt_bug :
    should_show (some TriggerMode.path)
      [⟨"file1.txt".data, some "📄 ".data⟩] ("file1.txt".data) = true
    ∧ (⟨"file1.txt".data, some "📄 ".data⟩ : DropdownItem).main
      = "file1.txt".data
    ∧ promptPlain ⟨"file1.txt".data, some "📄 ".data⟩
      = "📄 ".data ++ "file1.txt".data := by
  exact ⟨by decide, rfl, rfl⟩

/-- The configuration of the engine (`__init__`): the slash-command list,
the base path, plus the two external effectful collaborators, the fuzzy
matcher and the filesystem. -/
structure Env where
  slash_commands : List Str
  base_path : Str
  score : Str → Str → ℚ
  fs : Str → Except Unit (List DirEntry)

/-- The controller's mutable state: the target buffer (text and linear
cursor), `self._mode`, `self._trigger_pos`, `self._completing`, the
dropdown visibility (`styles.display`), the current option list and the
directory cache. -/
structure CtrlState where
  text : Str
  cursor : Nat
  mode : Option TriggerMode
  trigger_pos : Nat
  completing : Bool
  display : Bool
  options : List DropdownItem
  cache : LRU (List DirEntry)

/-- `_get_search_string(state)` (lines 214-226). -/
def get_search_string (mode : Option TriggerMode) (triggerPos : Nat)
    (text : Str) (cursor : Nat) : Str :=
  let w := windowOf text cursor
  match mode with
  | some TriggerMode.slash => w
  | some TriggerMode.path =>
    let pt := w.drop (triggerPos + 1)
    match rfind pt '/' with
    | some ls => pt.drop (ls + 1)
    | none => pt
  | none => []

/-- `_get_candidates(state)` (lines 228-234). -/
def get_candidates (env : Env) (mode : Option TriggerMode)
    (triggerPos : Nat) (text : Str) (cursor : Nat)
    (cache : LRU (List DirEntry)) :
    List DropdownItem × LRU (List DirEntry) :=
  match mode with
  | some TriggerMode.slash =>
    (env.slash_commands.map (fun cmd => ⟨cmd, some "⚡ ".data⟩), cache)
  | some TriggerMode.path =>
    get_path_candidates env.fs cache env.base_path text cursor triggerPos
  | none => ([], cache)

/-- `_rebuild_options(state)` (lines 272-283): clear, fetch candidates,
filter/rank against the search string; returns the new option list and the
cache as updated by the path provider. -/
def rebuild_options (env : Env) (mode : Option TriggerMode)
    (triggerPos : Nat) (text : Str) (cursor : Nat)
    (cache : LRU (List DirEntry)) :
    List DropdownItem × LRU (List DirEntry) :=
  let cc := get_candidates env mode triggerPos text cursor cache
  (get_matches env.score mode cc.1
    (get_search_string mode triggerPos text cursor), cc.2)

/-- `_handle_text_change` (lines 161-198) as a state transformer: a no-op
while `self._completing` is set; otherwise re-detect, rebuild the options
and set the visibility. -/
def handle_text_change (env : Env) (s : CtrlState) : CtrlState :=
  if s.completing then s
  else
    match detect s.text s.cursor with
    | none => {s with mode := none, trigger_pos := 0, display := false}
    | some (m, p) =>
      let rc := rebuild_options env (some m) p s.text s.cursor s.cache
      let disp := if rc.1 = [] then false
        else should_show (some m) rc.1
          (get_search_string (some m) p s.text s.cursor)
      {s with
        mode := some m
        trigger_pos := p
        options := rc.1
        cache := rc.2
        display := disp}

/-- The prefix stripping of `_complete` (lines 390-392): drop the
two-character glyph prefix when present. -/
def strip_glyph (value : Str) : Str :=
  if "⚡ ".data.isPrefixOf value || "📂 ".data.isPrefixOf value
      || "📄 ".data.isPrefixOf value
  then value.drop 2 else value

/-- `_complete(option_index)` (lines 383-409) up to and including the buffer
mutation of `_apply_completion`: the state in the middle of the splice,
after `self._completing = True` and the buffer write, before the flag is
cleared.  The buffer-change notification the write raises is processed
against exactly this state. -/
def complete_mid (s : CtrlState) (i : Nat) : CtrlState :=
  if s.display = false ∨ s.options = [] then s
  else
    let value := strip_glyph (promptPlain (s.options.getD i default))
    let res := apply_completion s.mode s.trigger_pos value s.text s.cursor
    {s with completing := true, text := res.1, cursor := res.2}

/-- The rest of `_complete`: with a committed directory (`keep_open`) the
flag is cleared and detection re-run at once for continued descent;
otherwise the deferred `hide_and_reset` clears the flag and hides after the
pending updates. -/
def complete_fin (env : Env) (s : CtrlState) (i : Nat) : CtrlState :=
  if s.display = false ∨ s.options = [] then s
  else
    let value := strip_glyph (promptPlain (s.options.getD i default))
    let mid := complete_mid s i
    if s.mode = some TriggerMode.path ∧ value.getLast? = some '/'
    then handle_text_change env {mid with completing := false}
    else {mid with completing := false, display := false}

theorem handle_text_change_completing (env : Env) (s : CtrlState) :
    (handle_text_change env s).completing = s.completing := by
  unfold handle_text_change
  by_cases hc : s.completing
  · rw [if_pos hc]
  · rw [if_neg hc]
    cases detect s.text s.cursor with
    | none => rfl
    | some mp => rfl

/-- **C2.** A commit never re-triggers the controller's own detection: the
suppression flag is set before the buffer mutation (it is set in the
mid-splice state), the buffer-change notification delivered mid-splice is a
complete no-op on the controller (no recursive commit, no reopening, no
state change at all), and after the commit completes the flag is cleared
again. -/
theorem commit_suppression (env : Env) (s : CtrlState) (i : Nat)
    (hdisp : s.display = true) (hopts : s.options ≠ []) :
    (complete_mid s i).completing = true
    ∧ handle_text_change env (complete_mid s i) = complete_mid s i
    ∧ (complete_fin env s i).completing = false := by
  have hguard : ¬ (s.display = false ∨ s.options = []) := by
    rintro (h | h)
    · rw [hdisp] at h
      exact Bool.noConfusion h
    · exact hopts h
  have hmid : (complete_mid s i).completing = true := by
    unfold complete_mid
    rw [if_neg hguard]
  refine ⟨hmid, ?_, ?_⟩
  · unfold handle_text_change
    rw [if_pos hmid]
  · unfold complete_fin
    rw [if_neg hguard]
    by_cases hk : s.mode = some TriggerMode.path
      ∧ (strip_glyph (promptPlain (s.options.getD i default))).getLast?
          = some '/'
    · rw [if_pos hk]
      rw [handle_text_change_completing]
    · rw [if_neg hk]

/-- A concrete environment for the suppression witness. -/
def env0 : Env := ⟨[], ".".data, fun _ _ => 1, fun _ => Except.error ()⟩

/-- A concrete open session: path mode at the `@` of `"@x"`, one candidate
shown. -/
def s0 : CtrlState :=
  ⟨"@x".data, 2, some TriggerMode.path, 0, false, true,
    [⟨"x".data, some "📄 ".data⟩], ⟨100, []⟩⟩

/-- Witness for C2 at a concrete open session. -/
theorem commit_suppression_witness :
    (complete_mid s0 0).completing = true
    ∧ handle_text_change env0 (complete_mid s0 0) = complete_mid s0 0
    ∧ (complete_fin env0 s0 0).completing = false :=
  commit_suppression env0 s0 0 rfl (by decide)
